import Mathlib

/-!
Shallow embedding of the `awesome-rust` link checker (`src/main.rs`) and
verification of its specification claims.

The program checks every URL extracted from `README.md`: a per-URL retry /
rewrite state machine (`get_url`), a permit pool of 20 concurrent handles
(`MaxHandles`), a result store with a positive cache (`Results`), and a drain
loop that folds completed checks into the store and reports a summary.

Machine strings are modelled as Lean `String` / `List Char`; the network is a
function from URL and attempt index to the response observed by that attempt;
HTTP status codes are `Nat`.
-/

/-! ### The GitHub-actions regex

`Regex::new(r"https://github.com/(?P<org>[^/]+)/(?P<repo>[^/]+)/actions(?:\?workflow=.+)?")`
from `get_url`, modelled on `List Char` with the regex crate semantics for this
pattern: an unanchored leftmost match; `[^/]+` is forced to the maximal
slash-free run (it cannot match `/`, and the pattern continues with `/`);
`.+` greedily takes at least one character up to a newline or the end;
`replace_all` substitutes every non-overlapping match left to right.
-/

def litGH : List Char := "https://github.com/".toList

def litActions : List Char := "/actions".toList

def litWorkflow : List Char := "?workflow=".toList

def notSlash (c : Char) : Bool := c != '/'

def notNewline (c : Char) : Bool := c != '\n'

/-- Drop an expected literal from the front of a character list. -/
def stripPre : List Char → List Char → Option (List Char)
  | [], s => some s
  | _ :: _, [] => none
  | p :: ps, c :: cs => if c = p then stripPre ps cs else none

/-- `(?P<org>[^/]+)/`: the maximal nonempty slash-free run, then a slash
(`[^/]+` cannot match `/` and the pattern continues with `/`, so the greedy
run is forced to stop exactly at the next slash). -/
def parseOrg (s : List Char) : Option (List Char × List Char) :=
  if (s.takeWhile notSlash).isEmpty then none else
  match s.dropWhile notSlash with
  | [] => none
  | _ :: rest => some (s.takeWhile notSlash, rest)

/-- `(?P<repo>[^/]+)/actions`: the maximal nonempty slash-free run, then the
literal `/actions`. -/
def parseRepoActions (s : List Char) : Option (List Char × List Char) :=
  if (s.takeWhile notSlash).isEmpty then none else
  match stripPre litActions (s.dropWhile notSlash) with
  | none => none
  | some rest => some (s.takeWhile notSlash, rest)

/-- `(?:\?workflow=.+)?`: optionally consume `?workflow=` plus a greedy
nonempty run of non-newline characters; returns what is left after the match. -/
def parseQuery (s : List Char) : List Char :=
  match stripPre litWorkflow s with
  | none => s
  | some s6 =>
    if (s6.takeWhile notNewline).isEmpty then s else s6.dropWhile notNewline

/-- Try to match the actions regex at the start of `s`; on success return the
captured `org`, `repo` and the characters after the match. -/
def matchAt (s : List Char) : Option (List Char × List Char × List Char) :=
  match stripPre litGH s with
  | none => none
  | some s1 =>
    match parseOrg s1 with
    | none => none
    | some (org, s3) =>
      match parseRepoActions s3 with
      | none => none
      | some (repo, s5) => some (org, repo, parseQuery s5)

/-- Leftmost match of the actions regex: the text before the match, the two
captures and the text after the match. -/
def findMatch : List Char → Option (List Char × List Char × List Char × List Char)
  | [] => none
  | c :: cs =>
    match matchAt (c :: cs) with
    | some (org, repo, rest) => some ([], org, repo, rest)
    | none =>
      match findMatch cs with
      | some (before, org, repo, rest) => some (c :: before, org, repo, rest)
      | none => none

/-- The substitution text `https://github.com/$org/$repo`. -/
def replacement (org repo : List Char) : List Char := litGH ++ org ++ '/' :: repo

def replaceAllAux : Nat → List Char → List Char
  | 0, s => s
  | fuel + 1, s =>
    match findMatch s with
    | none => s
    | some (before, org, repo, rest) =>
      before ++ replacement org repo ++ replaceAllAux fuel rest

/-- `ACTIONS_REGEX.replace_all(&url, "https://github.com/$org/$repo")`.
Every match strictly shrinks the string, so the string length is enough fuel. -/
def actionsReplaceAll (url : String) : String :=
  (replaceAllAux url.toList.length url.toList).asString

/-- `ACTIONS_REGEX.is_match(&url)`. -/
def actionsIsMatch (url : String) : Bool :=
  (findMatch url.toList).isSome

/-! ### Responses, errors and the network -/

/-- What one completed HTTP request exposes to the checker: its status code and
the value of the `Location` header, when present. -/
structure Resp where
  status : Nat
  location : Option String
deriving DecidableEq, Repr

/-- Result of one `CLIENT.get(&url).send().await`: a transport error or a
response. -/
inductive FetchResult where
  | err (error : String)
  | ok (resp : Resp)
deriving DecidableEq, Repr

/-- The network as observed by one logical check: the response to the request
for `url` issued by attempt number `i` of a single `get_url` invocation. -/
abbrev Network := String → Nat → FetchResult

/-- The `CheckerError` enum of `main.rs`. -/
inductive CheckerError where
  | notTried
  | httpError (status : Nat) (location : Option String)
  | reqwestError (error : String)
deriving DecidableEq, Repr

deriving instance DecidableEq for Except

/-- `StatusCode::is_redirection()`: the 3xx class. -/
def isRedirection (status : Nat) : Bool := 300 ≤ status && status ≤ 399

/-- Models `format!("{:?}", ok)`, the payload stored on success (never inspected
by the rest of the program). -/
def respDebug (r : Resp) : String :=
  "Response \x7b status: " ++ toString r.status ++ " \x7d"

/-! ### The fetcher: `get_url`

The `for _ in 0..5` loop with its running `res`, written as a recursion on the
remaining attempt count; `i` is the current attempt index fed to the network.
`recCall` stands for the recursive `get_url(rewritten)` invocation; the outer
definition ties the knot with fuel bounded by the URL length (each rewrite
strictly shortens the URL, so this fuel is never exhausted from `getUrlTop`).
-/

def attemptLoop (net : Network) (recCall : String → String × Except CheckerError String)
    (url : String) : Nat → Nat → Except CheckerError String → String × Except CheckerError String
  | _, 0, res => (url, res)
  | i, rem + 1, _res =>
    match net url i with
    | .err e => attemptLoop net recCall url (i + 1) rem (.error (.reqwestError e))
    | .ok resp =>
      if resp.status = 200 then (url, .ok (respDebug resp))
      else if resp.status = 404 ∧ actionsIsMatch url = true then
        (url, (recCall (actionsReplaceAll url)).2)
      else if isRedirection resp.status then
        attemptLoop net recCall url (i + 1) rem (.error (.httpError resp.status resp.location))
      else
        attemptLoop net recCall url (i + 1) rem (.error (.httpError resp.status none))

def get_url : Nat → Network → String → String × Except CheckerError String
  | 0, _, url => (url, .error .notTried)
  | fuel + 1, net, url => attemptLoop net (get_url fuel net) url 0 5 (.error .notTried)

/-- One whole logical check of `url`, as spawned by `main`. -/
def getUrlTop (net : Network) (url : String) : String × Except CheckerError String :=
  get_url (url.toList.length + 1) net url

/-! ### Request trace of `get_url`

`getUrlTrace` mirrors the control flow of `get_url` exactly, recording the
requests it issues as `(requested url, attempt index)` pairs instead of
computing the result; since both are deterministic functions of the same
network, the pair (`get_url`, `getUrlTrace`) describes one check completely.
The running `res` value never influences which requests are made, so the trace
recursion does not carry it.
-/

def requestTrace (net : Network) (recReq : String → List (String × Nat))
    (url : String) : Nat → Nat → List (String × Nat)
  | _, 0 => []
  | i, rem + 1 =>
    match net url i with
    | .err _ => (url, i) :: requestTrace net recReq url (i + 1) rem
    | .ok resp =>
      if resp.status = 200 then [(url, i)]
      else if resp.status = 404 ∧ actionsIsMatch url = true then
        (url, i) :: recReq (actionsReplaceAll url)
      else (url, i) :: requestTrace net recReq url (i + 1) rem

def getUrlTrace : Nat → Network → String → List (String × Nat)
  | 0, _, _ => []
  | fuel + 1, net, url => requestTrace net (getUrlTrace fuel net) url 0 5

/-! ### Permit pool: `MaxHandles` / `Handle`

`HANDLES.get()` CAS-decrements `remaining` only when it is positive;
`Drop for Handle` increments it.  A pool state tracks the remaining counter and
the number of permits acquired but not yet released; `PoolStep.rel` requires a
held permit because only a holder's `Drop` releases.
-/

structure PoolState where
  remaining : Nat
  outstanding : Nat
deriving DecidableEq, Repr

inductive PoolStep : PoolState → PoolState → Prop where
  | acq (r o : Nat) : 0 < r → PoolStep ⟨r, o⟩ ⟨r - 1, o + 1⟩
  | rel (r o : Nat) : 0 < o → PoolStep ⟨r, o⟩ ⟨r + 1, o - 1⟩

inductive PoolReachable : PoolState → Prop where
  | init : PoolReachable ⟨20, 0⟩
  | step {s t : PoolState} : PoolReachable s → PoolStep s t → PoolReachable t

/-- Acquire/release events of one logical check, in program order: the handle is
taken on entry and dropped when the scope exits; on the rewrite path the inner
check runs — with its own handle — before the outer scope exits. -/
inductive PoolEvent where
  | acq
  | rel
deriving DecidableEq, Repr

def checkTraceLoop (net : Network) (recTrace : String → List PoolEvent)
    (url : String) : Nat → Nat → List PoolEvent
  | _, 0 => []
  | i, rem + 1 =>
    match net url i with
    | .err _ => checkTraceLoop net recTrace url (i + 1) rem
    | .ok resp =>
      if resp.status = 200 then []
      else if resp.status = 404 ∧ actionsIsMatch url = true then
        recTrace (actionsReplaceAll url)
      else checkTraceLoop net recTrace url (i + 1) rem

def checkTrace : Nat → Network → String → List PoolEvent
  | 0, _, _ => []
  | fuel + 1, net, url =>
    .acq :: (checkTraceLoop net (checkTrace fuel net) url 0 5 ++ [.rel])

/-! ### The result store: `Results`

`BTreeSet<String>` is modelled as a strictly sorted list of strings and
`BTreeMap<String, String>` as a strictly key-sorted association list, with the
Rust byte-lexicographic string order (UTF-8 byte order coincides with code
point order, modelled by `strLt` on `Char.toNat`).
-/

def strLt : List Char → List Char → Bool
  | _, [] => false
  | [], _ :: _ => true
  | a :: as, b :: bs =>
    if a.toNat < b.toNat then true
    else if b.toNat < a.toNat then false
    else strLt as bs

def stringLt (a b : String) : Bool := strLt a.toList b.toList

/-- `BTreeSet::insert`: keeps the list strictly sorted, no-op on a duplicate. -/
def setInsert (x : String) : List String → List String
  | [] => [x]
  | y :: rest =>
    if stringLt x y then x :: y :: rest
    else if x = y then y :: rest
    else y :: setInsert x rest

/-- `BTreeMap::insert`: keeps keys strictly sorted, replaces the value of an
existing key. -/
def mapInsert (k v : String) : List (String × String) → List (String × String)
  | [] => [(k, v)]
  | (k2, v2) :: rest =>
    if stringLt k k2 then (k, v) :: (k2, v2) :: rest
    else if k = k2 then (k, v) :: rest
    else (k2, v2) :: mapInsert k v rest

def hasKey (k : String) : List (String × String) → Bool
  | [] => false
  | (k2, _) :: rest => if k = k2 then true else hasKey k rest

def mapFind? (k : String) : List (String × String) → Option String
  | [] => none
  | (k2, v) :: rest => if k = k2 then some v else mapFind? k rest

def sortedStrings : List String → Bool
  | [] => true
  | [_] => true
  | a :: b :: rest => stringLt a b && sortedStrings (b :: rest)

structure Results where
  working : List String
  failed : List (String × String)
deriving DecidableEq, Repr

/-! ### The orchestrator: `main` -/

/-- Models the derived `Debug` rendering used by `format!("{:?}", err)`. -/
def checkerErrorDebug : CheckerError → String
  | .notTried => "NotTried"
  | .httpError status none =>
    "HttpError \x7b status: " ++ toString status ++ ", location: None \x7d"
  | .httpError status (some loc) =>
    "HttpError \x7b status: " ++ toString status ++ ", location: Some(" ++ loc ++ ") \x7d"
  | .reqwestError e => "ReqwestError \x7b error: " ++ e ++ " \x7d"

/-- The diagnostic string built in the `Err` arm of the drain loop. -/
def renderMessage (url : String) (err : CheckerError) : String :=
  match err with
  | .httpError status (some loc) => "[" ++ toString status ++ "] " ++ url ++ " -> " ++ loc
  | .httpError status none => "[" ++ toString status ++ "] " ++ url
  | _ => checkerErrorDebug err

/-- `results.failed.clear()` right after loading. -/
def initResults (loaded : Results) : Results := { loaded with failed := [] }

/-- `url.starts_with("http")`. -/
def startsWithHttp (url : String) : Bool := "http".toList.isPrefixOf url.toList

/-- The `do_check` filter: candidates scheduled for a fetch, in document order. -/
def scheduledUrls (loaded : Results) (candidates : List String) : List String :=
  candidates.filter (fun u => startsWithHttp u && !(loaded.working.contains u))

/-- One iteration of the drain loop over a completed check. -/
def processOne (r : Results) (c : String × Except CheckerError String) : Results :=
  match c.2 with
  | .ok _ => { r with working := setInsert c.1 r.working }
  | .error err => { r with failed := mapInsert c.1 (renderMessage c.1 err) r.failed }

/-- The completed checks of one run in scheduling order; check number `k` sees
the network behavior `nets k` (concurrent checks of one URL may observe
different responses). -/
def completionsOf (nets : Nat → Network) (loaded : Results) (candidates : List String) :
    List (String × Except CheckerError String) :=
  (scheduledUrls loaded candidates).enum.map (fun p => getUrlTop (nets p.1) p.2)

/-- The drain loop: fold the completions, in the (nondeterministic) order in
which `select_all` yields them, into the store. -/
def drainRun (loaded : Results) (comps : List (String × Except CheckerError String)) : Results :=
  comps.foldl processOne (initResults loaded)

/-- Lines printed after the drain loop (lines 230-239 of `main.rs`). -/
def finalLines (r : Results) : List String :=
  if r.failed.isEmpty then ["No errors!"] else r.failed.map Prod.snd

/-- The value `main` returns: `Ok(())` or the error that makes the process exit
with failure. -/
def finalOutcome (r : Results) : Except String Unit :=
  if r.failed.isEmpty then .ok () else .error (toString r.failed.length ++ " urls with errors")

/-! ### Persistence (spec-modelled)

The on-disk YAML encoding lives in the external `serde_yaml` crate, not in this
repository's source; the spec treats it abstractly as a key-value persistence
format whose `working` field is a sorted sequence of unique strings and whose
`failed` field is a key-sorted mapping.
-/

structure PersistedResults where
  working : List String
  failed : List (String × String)
deriving DecidableEq, Repr

/-- Modelled from the spec: the derived `Serialize` for `Results` (external
`serde_yaml`) emits `working` as its elements in ascending order and `failed`
as its entries in ascending key order — which is exactly the sorted-list
representation of the store. -/
def persistResults (r : Results) : PersistedResults := ⟨r.working, r.failed⟩

/-- Modelled from the spec: the derived `Deserialize` for `Results` (external
`serde_yaml`) rebuilds the `BTreeSet` and `BTreeMap` by inserting every
persisted element. -/
def loadResults (p : PersistedResults) : Results :=
  ⟨p.working.foldl (fun s u => setInsert u s) [],
   p.failed.foldl (fun m kv => mapInsert kv.1 kv.2 m) []⟩

/-! ### Small discriminators used in the claims -/

def resultOk : Except CheckerError String → Bool
  | .ok _ => true
  | .error _ => false

def isNotTriedRes : Except CheckerError String → Bool
  | .error .notTried => true
  | _ => false

/-- Does this response make the attempt loop record an error and go on to the
next attempt (neither success nor the rewrite early-return)? -/
def retries (f : FetchResult) (url : String) : Bool :=
  match f with
  | .err _ => true
  | .ok resp =>
    if resp.status = 200 then false
    else if resp.status = 404 ∧ actionsIsMatch url = true then false
    else true

/-- The error the attempt loop records for a failed attempt. -/
def lastErr (f : FetchResult) : CheckerError :=
  match f with
  | .err e => .reqwestError e
  | .ok resp =>
    if isRedirection resp.status then .httpError resp.status resp.location
    else .httpError resp.status none

def exitOk : Except String Unit → Bool
  | .ok _ => true
  | .error _ => false

/-! ## Order facts for `strLt` -/

theorem charToNat_inj {a b : Char} (h : a.toNat = b.toNat) : a = b :=
  Char.eq_of_val_eq (UInt32.ext h)

theorem strLt_irrefl : ∀ s, strLt s s = false
  | [] => rfl
  | a :: as => by
    simp only [strLt, Nat.lt_irrefl, if_false]
    exact strLt_irrefl as

theorem strLt_trans : ∀ {a b c : List Char},
    strLt a b = true → strLt b c = true → strLt a c = true
  | _, _, [] => by intro _ h; simp [strLt] at h
  | [], _ :: _, _ :: _ => by intro _ _; rfl
  | [], [], _ :: _ => by intro h _; simp [strLt] at h
  | _ :: _, [], _ => by intro h _; simp [strLt] at h
  | a :: as, b :: bs, c :: cs => by
    intro hab hbc
    simp only [strLt] at hab hbc ⊢
    rcases Nat.lt_trichotomy a.toNat b.toNat with h1 | h1 | h1
    · rcases Nat.lt_trichotomy b.toNat c.toNat with h2 | h2 | h2
      · simp [Nat.lt_trans h1 h2]
      · simp [h2 ▸ h1]
      · simp [h1, Nat.lt_asymm h1, h2, Nat.lt_asymm h2] at hab hbc ⊢
    · have hec : a = b := charToNat_inj h1
      subst hec
      simp only [Nat.lt_irrefl, if_false] at hab
      rcases Nat.lt_trichotomy a.toNat c.toNat with h2 | h2 | h2
      · simp [h2]
      · have hec2 : a = c := charToNat_inj h2
        subst hec2
        simp only [Nat.lt_irrefl, if_false] at hbc ⊢
        exact strLt_trans hab hbc
      · simp [Nat.lt_asymm h2, h2] at hbc
    · simp [Nat.lt_asymm h1, h1] at hab

theorem strLt_total : ∀ {a b : List Char},
    strLt a b = false → a ≠ b → strLt b a = true
  | [], [] => by intro _ h; exact absurd rfl h
  | [], _ :: _ => by intro h _; simp [strLt] at h
  | _ :: _, [] => by intro _ _; rfl
  | a :: as, b :: bs => by
    intro hab hne
    simp only [strLt] at hab ⊢
    rcases Nat.lt_trichotomy a.toNat b.toNat with h1 | h1 | h1
    · simp [h1] at hab
    · have : a = b := charToNat_inj h1
      subst this
      simp only [Nat.lt_irrefl, if_false] at hab ⊢
      exact strLt_total hab (fun h => hne (by rw [h]))
    · simp [h1, Nat.lt_asymm h1]

theorem strLt_asymm {a b : List Char} (h : strLt a b = true) : strLt b a = false := by
  cases hba : strLt b a
  · rfl
  · exact absurd (strLt_trans h hba) (by simp [strLt_irrefl])

theorem stringLt_irrefl (s : String) : stringLt s s = false := strLt_irrefl _

theorem string_toList_inj {a b : String} (h : a.toList = b.toList) : a = b := by
  cases a; cases b; exact congrArg String.mk (by simpa [String.toList] using h)

theorem stringLt_total {a b : String} (h : stringLt a b = false) (hne : a ≠ b) :
    stringLt b a = true :=
  strLt_total h (fun hl => hne (string_toList_inj hl))

theorem stringLt_asymm {a b : String} (h : stringLt a b = true) : stringLt b a = false :=
  strLt_asymm h

theorem stringLt_trans {a b c : String} (h1 : stringLt a b = true) (h2 : stringLt b c = true) :
    stringLt a c = true := strLt_trans h1 h2

theorem stringLt_ne {a b : String} (h : stringLt a b = true) : a ≠ b := by
  intro he; subst he; simp [stringLt_irrefl] at h

/-! ## `setInsert` / `mapInsert` facts -/

theorem mem_setInsert (a x : String) : ∀ s : List String,
    (a ∈ setInsert x s ↔ a = x ∨ a ∈ s)
  | [] => by simp [setInsert]
  | y :: rest => by
    simp only [setInsert]
    by_cases h1 : stringLt x y = true
    · rw [if_pos h1]
      simp only [List.mem_cons]
    · rw [if_neg h1]
      by_cases h2 : x = y
      · rw [if_pos h2]
        subst h2
        simp only [List.mem_cons]
        tauto
      · rw [if_neg h2]
        simp only [List.mem_cons, mem_setInsert a x rest]
        tauto

theorem setInsert_head? (x : String) : ∀ s : List String,
    (setInsert x s).head? = some x ∨ (setInsert x s).head? = s.head?
  | [] => Or.inl rfl
  | y :: rest => by
    simp only [setInsert]
    by_cases h1 : stringLt x y = true
    · rw [if_pos h1]; exact Or.inl rfl
    · rw [if_neg h1]
      by_cases h2 : x = y
      · rw [if_pos h2]; exact Or.inr rfl
      · rw [if_neg h2]; exact Or.inr rfl

theorem sorted_tail {a : String} {s : List String}
    (h : sortedStrings (a :: s) = true) : sortedStrings s = true := by
  cases s with
  | nil => rfl
  | cons b rest => simp only [sortedStrings, Bool.and_eq_true] at h; exact h.2

theorem sorted_cons_of {a : String} {s : List String}
    (hs : sortedStrings s = true)
    (ha : ∀ b, s.head? = some b → stringLt a b = true) :
    sortedStrings (a :: s) = true := by
  cases s with
  | nil => rfl
  | cons b rest =>
    simp only [sortedStrings, Bool.and_eq_true]
    exact ⟨ha b rfl, hs⟩

theorem sorted_head_lt {a b : String} {s : List String}
    (h : sortedStrings (a :: s) = true) (hb : b ∈ s) : stringLt a b = true := by
  induction s generalizing a with
  | nil => cases hb
  | cons c rest ih =>
    simp only [sortedStrings, Bool.and_eq_true] at h
    rcases List.mem_cons.mp hb with h1 | h1
    · subst h1; exact h.1
    · exact stringLt_trans h.1 (ih h.2 h1)

theorem sorted_setInsert (x : String) : ∀ {s : List String},
    sortedStrings s = true → sortedStrings (setInsert x s) = true := by
  intro s
  induction s with
  | nil => intro _; rfl
  | cons y rest ih =>
    intro hs
    simp only [setInsert]
    by_cases h1 : stringLt x y = true
    · rw [if_pos h1]
      apply sorted_cons_of hs
      intro b hb
      cases hb
      exact h1
    · rw [if_neg h1]
      by_cases h2 : x = y
      · rw [if_pos h2]; exact hs
      · rw [if_neg h2]
        have htail := ih (sorted_tail hs)
        apply sorted_cons_of htail
        intro b hb
        rcases setInsert_head? x rest with hh | hh
        · rw [hh] at hb
          cases hb
          exact stringLt_total (by simpa using h1) h2
        · rw [hh] at hb
          cases rest with
          | nil => cases hb
          | cons c r2 =>
            cases hb
            simp only [sortedStrings, Bool.and_eq_true] at hs
            exact hs.1

theorem hasKey_mapInsert_self (k v : String) : ∀ m, hasKey k (mapInsert k v m) = true
  | [] => by simp [mapInsert, hasKey]
  | (k2, v2) :: rest => by
    simp only [mapInsert]
    by_cases h1 : stringLt k k2 = true
    · rw [if_pos h1]; simp [hasKey]
    · rw [if_neg h1]
      by_cases h2 : k = k2
      · rw [if_pos h2]; simp [hasKey]
      · rw [if_neg h2]
        simp only [hasKey]
        rw [if_neg h2]
        exact hasKey_mapInsert_self k v rest

theorem hasKey_mapInsert_other {k k2 : String} (hne : k ≠ k2) (v : String) :
    ∀ m, hasKey k (mapInsert k2 v m) = hasKey k m
  | [] => by simp [mapInsert, hasKey, hne]
  | (k3, v3) :: rest => by
    simp only [mapInsert]
    by_cases h1 : stringLt k2 k3 = true
    · rw [if_pos h1]
      simp only [hasKey]
      rw [if_neg hne]
    · rw [if_neg h1]
      by_cases h2 : k2 = k3
      · rw [if_pos h2]
        subst h2
        simp only [hasKey]
      · rw [if_neg h2]
        simp only [hasKey]
        by_cases h3 : k = k3
        · rw [if_pos h3, if_pos h3]
        · rw [if_neg h3, if_neg h3]
          exact hasKey_mapInsert_other hne v rest

theorem mapFind?_mapInsert_self (k v : String) : ∀ m, mapFind? k (mapInsert k v m) = some v
  | [] => by simp [mapInsert, mapFind?]
  | (k2, v2) :: rest => by
    simp only [mapInsert]
    by_cases h1 : stringLt k k2 = true
    · rw [if_pos h1]; simp [mapFind?]
    · rw [if_neg h1]
      by_cases h2 : k = k2
      · rw [if_pos h2]; simp [mapFind?]
      · rw [if_neg h2]
        simp only [mapFind?]
        rw [if_neg h2]
        exact mapFind?_mapInsert_self k v rest

theorem mapInsert_fst_head? (k v : String) : ∀ m : List (String × String),
    ((mapInsert k v m).map Prod.fst).head? = some k ∨
      ((mapInsert k v m).map Prod.fst).head? = (m.map Prod.fst).head?
  | [] => Or.inl rfl
  | (k2, v2) :: rest => by
    simp only [mapInsert]
    by_cases h1 : stringLt k k2 = true
    · rw [if_pos h1]; exact Or.inl rfl
    · rw [if_neg h1]
      by_cases h2 : k = k2
      · rw [if_pos h2]; exact Or.inl rfl
      · rw [if_neg h2]; exact Or.inr rfl

theorem sorted_mapInsert (k v : String) : ∀ {m : List (String × String)},
    sortedStrings (m.map Prod.fst) = true →
    sortedStrings ((mapInsert k v m).map Prod.fst) = true := by
  intro m
  induction m with
  | nil => intro _; rfl
  | cons p rest ih =>
    obtain ⟨k2, v2⟩ := p
    intro hs
    simp only [List.map_cons] at hs
    simp only [mapInsert]
    by_cases h1 : stringLt k k2 = true
    · rw [if_pos h1]
      simp only [List.map_cons]
      apply sorted_cons_of hs
      intro b hb
      cases hb
      exact h1
    · rw [if_neg h1]
      by_cases h2 : k = k2
      · rw [if_pos h2]
        subst h2
        simpa using hs
      · rw [if_neg h2]
        simp only [List.map_cons]
        have htail := ih (sorted_tail hs)
        apply sorted_cons_of htail
        intro b hb
        rcases mapInsert_fst_head? k v rest with hh | hh
        · rw [hh] at hb
          cases hb
          exact stringLt_total (by simpa using h1) h2
        · rw [hh] at hb
          cases hm : rest.map Prod.fst with
          | nil => rw [hm] at hb; cases hb
          | cons c r2 =>
            rw [hm] at hb
            cases hb
            rw [hm] at hs
            simp only [sortedStrings, Bool.and_eq_true] at hs
            exact hs.1

theorem setInsert_append_gt (x : String) : ∀ s : List String,
    (∀ a ∈ s, stringLt a x = true) → setInsert x s = s ++ [x]
  | [] => by intro _; rfl
  | y :: rest => by
    intro h
    have hy : stringLt y x = true := h y (by simp)
    simp only [setInsert]
    rw [if_neg (by simp [stringLt_asymm hy]),
      if_neg (fun he => stringLt_ne hy he.symm),
      setInsert_append_gt x rest (fun a ha => h a (by simp [ha]))]
    simp

theorem foldl_setInsert_sorted : ∀ (l acc : List String),
    sortedStrings l = true →
    (∀ b ∈ l, ∀ a ∈ acc, stringLt a b = true) →
    l.foldl (fun s u => setInsert u s) acc = acc ++ l
  | [], acc => by intro _ _; simp
  | b :: rest, acc => by
    intro hl hcond
    simp only [List.foldl_cons]
    rw [setInsert_append_gt b acc (fun a ha => hcond b (by simp) a ha)]
    rw [foldl_setInsert_sorted rest (acc ++ [b]) (sorted_tail hl) ?_]
    · simp
    intro c hc a ha
    rcases List.mem_append.mp ha with h1 | h1
    · exact hcond c (by simp [hc]) a h1
    · have hab : a = b := by simpa using h1
      subst hab
      exact sorted_head_lt hl hc

theorem mapInsert_append_gt (k v : String) : ∀ m : List (String × String),
    (∀ p ∈ m, stringLt p.1 k = true) → mapInsert k v m = m ++ [(k, v)]
  | [] => by intro _; rfl
  | (k2, v2) :: rest => by
    intro h
    have hy : stringLt k2 k = true := h (k2, v2) (by simp)
    simp only [mapInsert]
    rw [if_neg (by simp [stringLt_asymm hy]),
      if_neg (fun he => stringLt_ne hy he.symm),
      mapInsert_append_gt k v rest (fun p hp => h p (by simp [hp]))]
    simp

theorem foldl_mapInsert_sorted : ∀ (m acc : List (String × String)),
    sortedStrings (m.map Prod.fst) = true →
    (∀ p ∈ m, ∀ q ∈ acc, stringLt q.1 p.1 = true) →
    m.foldl (fun s kv => mapInsert kv.1 kv.2 s) acc = acc ++ m
  | [], acc => by intro _ _; simp
  | (k, v) :: rest, acc => by
    intro hl hcond
    simp only [List.foldl_cons]
    rw [mapInsert_append_gt k v acc (fun q hq => hcond (k, v) (by simp) q hq)]
    rw [foldl_mapInsert_sorted rest (acc ++ [(k, v)])
      (by simpa using sorted_tail (by simpa using hl)) ?_]
    · simp
    intro p hp q hq
    rcases List.mem_append.mp hq with h1 | h1
    · exact hcond p (by simp [hp]) q h1
    · have hqk : q = (k, v) := by simpa using h1
      subst hqk
      exact sorted_head_lt (by simpa using hl) (by exact List.mem_map_of_mem Prod.fst hp)

theorem sorted_nodup : ∀ {s : List String}, sortedStrings s = true → s.Nodup
  | [] => fun _ => List.nodup_nil
  | a :: rest => fun h => by
    refine List.nodup_cons.mpr ⟨?_, sorted_nodup (sorted_tail h)⟩
    intro hmem
    exact stringLt_ne (sorted_head_lt h hmem) rfl

/-! ## Facts about the regex model -/

theorem stripPre_eq : ∀ {p s t : List Char}, stripPre p s = some t → s = p ++ t
  | [], _, _ => by intro h; cases h; rfl
  | _ :: _, [], _ => by intro h; cases h
  | p :: ps, c :: cs, t => by
    intro h
    simp only [stripPre] at h
    by_cases hc : c = p
    · rw [if_pos hc] at h
      subst hc
      rw [List.cons_append, stripPre_eq h]
    · rw [if_neg hc] at h; cases h

theorem stripPre_self : ∀ (p t : List Char), stripPre p (p ++ t) = some t
  | [], _ => rfl
  | c :: ps, t => by
    simp only [List.cons_append, stripPre, if_pos rfl]
    exact stripPre_self ps t

theorem notSlash_false {c : Char} (h : notSlash c = false) : c = '/' := by
  simpa [notSlash, bne_eq_false_iff_eq] using h

theorem dropWhile_head_false {p : Char → Bool} {c : Char} {rest : List Char} :
    ∀ l : List Char, l.dropWhile p = c :: rest → p c = false := by
  intro l
  induction l with
  | nil => intro h; cases h
  | cons a as ih =>
    intro h
    by_cases ha : p a = true
    · rw [List.dropWhile_cons_of_pos ha] at h
      exact ih h
    · rw [List.dropWhile_cons_of_neg ha] at h
      cases h
      simpa using ha

theorem takeWhile_append_all {p : Char → Bool} :
    ∀ (l1 l2 : List Char), (∀ c ∈ l1, p c = true) →
      (l1 ++ l2).takeWhile p = l1 ++ l2.takeWhile p
  | [], l2 => by intro _; rfl
  | a :: as, l2 => by
    intro h
    rw [List.cons_append, List.takeWhile_cons_of_pos (h a (by simp)), List.cons_append,
      takeWhile_append_all as l2 (fun c hc => h c (by simp [hc]))]

theorem dropWhile_append_all {p : Char → Bool} :
    ∀ (l1 l2 : List Char), (∀ c ∈ l1, p c = true) →
      (l1 ++ l2).dropWhile p = l2.dropWhile p
  | [], l2 => by intro _; rfl
  | a :: as, l2 => by
    intro h
    rw [List.cons_append, List.dropWhile_cons_of_pos (h a (by simp)),
      dropWhile_append_all as l2 (fun c hc => h c (by simp [hc]))]

theorem parseOrg_decomp {s o rest : List Char} (h : parseOrg s = some (o, rest)) :
    s = o ++ '/' :: rest := by
  simp only [parseOrg] at h
  by_cases he : (s.takeWhile notSlash).isEmpty = true
  · rw [if_pos he] at h; cases h
  · rw [if_neg he] at h
    cases hd : s.dropWhile notSlash with
    | nil => simp only [hd] at h; cases h
    | cons c rest2 =>
      simp only [hd] at h
      cases h
      have hc : c = '/' := notSlash_false (dropWhile_head_false s hd)
      subst hc
      rw [← hd, List.takeWhile_append_dropWhile]

theorem parseRepoActions_decomp {s r rest : List Char}
    (h : parseRepoActions s = some (r, rest)) : s = r ++ (litActions ++ rest) := by
  simp only [parseRepoActions] at h
  by_cases he : (s.takeWhile notSlash).isEmpty = true
  · rw [if_pos he] at h; cases h
  · rw [if_neg he] at h
    cases hd : stripPre litActions (s.dropWhile notSlash) with
    | none => simp only [hd] at h; cases h
    | some rest2 =>
      simp only [hd] at h
      cases h
      rw [← stripPre_eq hd, List.takeWhile_append_dropWhile]

theorem parseQuery_decomp (s : List Char) : ∃ pre, s = pre ++ parseQuery s := by
  cases hd : stripPre litWorkflow s with
  | none => exact ⟨[], by simp [parseQuery, hd]⟩
  | some s6 =>
    by_cases he : (s6.takeWhile notNewline).isEmpty = true
    · exact ⟨[], by simp only [parseQuery, hd, if_pos he, List.nil_append]⟩
    · refine ⟨litWorkflow ++ s6.takeWhile notNewline, ?_⟩
      simp only [parseQuery, hd, if_neg he]
      rw [List.append_assoc, List.takeWhile_append_dropWhile]
      exact stripPre_eq hd

theorem matchAt_decomp {s o r rest : List Char} (h : matchAt s = some (o, r, rest)) :
    ∃ pre, s = litGH ++ (o ++ '/' :: (r ++ (litActions ++ (pre ++ rest)))) := by
  simp only [matchAt] at h
  cases h1 : stripPre litGH s with
  | none => simp only [h1] at h; cases h
  | some s1 =>
    simp only [h1] at h
    cases h2 : parseOrg s1 with
    | none => simp only [h2] at h; cases h
    | some po =>
      obtain ⟨o2, s3⟩ := po
      simp only [h2] at h
      cases h3 : parseRepoActions s3 with
      | none => simp only [h3] at h; cases h
      | some pr =>
        obtain ⟨r2, s5⟩ := pr
        simp only [h3] at h
        cases h
        obtain ⟨pre, hpre⟩ := parseQuery_decomp s5
        refine ⟨pre, ?_⟩
        rw [stripPre_eq h1, parseOrg_decomp h2, parseRepoActions_decomp h3, ← hpre]

theorem findMatch_decomp : ∀ {s b o r rest : List Char},
    findMatch s = some (b, o, r, rest) →
    ∃ pre, s = b ++ (litGH ++ (o ++ '/' :: (r ++ (litActions ++ (pre ++ rest)))))
  | [], _, _, _, _ => by intro h; cases h
  | c :: cs, b, o, r, rest => by
    intro h
    simp only [findMatch] at h
    cases h1 : matchAt (c :: cs) with
    | some t =>
      obtain ⟨o2, r2, rest2⟩ := t
      simp only [h1] at h
      cases h
      obtain ⟨pre, hpre⟩ := matchAt_decomp h1
      exact ⟨pre, by rw [← hpre]; rfl⟩
    | none =>
      simp only [h1] at h
      cases h2 : findMatch cs with
      | none => simp only [h2] at h; cases h
      | some t =>
        obtain ⟨b2, o2, r2, rest2⟩ := t
        simp only [h2] at h
        cases h
        obtain ⟨pre, hpre⟩ := findMatch_decomp h2
        exact ⟨pre, by rw [List.cons_append, ← hpre]⟩

/-! ## The exact actions-URL shape of the spec's rewrite rule -/

/-- `https://github.com/{org}/{repo}/actions` followed by the query suffix `q`. -/
def actionsUrlChars (org repo q : List Char) : List Char :=
  litGH ++ (org ++ '/' :: (repo ++ (litActions ++ q)))

/-- An optional `?workflow=...` query suffix (no newlines, nonempty when
present, matching the regex's `.+`). -/
def ActionsQuery (q : List Char) : Prop :=
  q = [] ∨ ∃ w, q = litWorkflow ++ w ∧ w ≠ [] ∧ ∀ c ∈ w, c ≠ '\n'

/-- The spec's pattern `https://github.com/{org}/{repo}/actions` with an
optional query suffix: `org` and `repo` are nonempty path segments. -/
structure ActionsForm (org repo q : List Char) : Prop where
  org_ne : org ≠ []
  repo_ne : repo ≠ []
  org_noslash : ∀ c ∈ org, c ≠ '/'
  repo_noslash : ∀ c ∈ repo, c ≠ '/'
  query : ActionsQuery q

theorem notSlash_of_ne {c : Char} (h : c ≠ '/') : notSlash c = true := by
  simpa [notSlash] using h

theorem parseOrg_spec {org : List Char} (rest : List Char) (hne : org ≠ [])
    (hns : ∀ c ∈ org, c ≠ '/') : parseOrg (org ++ '/' :: rest) = some (org, rest) := by
  have hall : ∀ c ∈ org, notSlash c = true := fun c hc => notSlash_of_ne (hns c hc)
  have ht : (org ++ '/' :: rest).takeWhile notSlash = org := by
    rw [takeWhile_append_all org ('/' :: rest) hall,
      List.takeWhile_cons_of_neg (by simp [notSlash]), List.append_nil]
  have hd : (org ++ '/' :: rest).dropWhile notSlash = '/' :: rest := by
    rw [dropWhile_append_all org ('/' :: rest) hall,
      List.dropWhile_cons_of_neg (by simp [notSlash])]
  simp only [parseOrg, ht, hd]
  rw [if_neg (by simp [hne])]

theorem parseRepoActions_spec {repo : List Char} (q : List Char) (hne : repo ≠ [])
    (hns : ∀ c ∈ repo, c ≠ '/') :
    parseRepoActions (repo ++ (litActions ++ q)) = some (repo, q) := by
  have hall : ∀ c ∈ repo, notSlash c = true := fun c hc => notSlash_of_ne (hns c hc)
  have hlit : litActions ++ q = '/' :: ("actions".toList ++ q) := rfl
  have ht : (repo ++ (litActions ++ q)).takeWhile notSlash = repo := by
    rw [takeWhile_append_all repo _ hall, hlit,
      List.takeWhile_cons_of_neg (by simp [notSlash]), List.append_nil]
  have hd : (repo ++ (litActions ++ q)).dropWhile notSlash = litActions ++ q := by
    rw [dropWhile_append_all repo _ hall, hlit,
      List.dropWhile_cons_of_neg (by simp [notSlash])]
  simp only [parseRepoActions, ht, hd, stripPre_self]
  rw [if_neg (by simp [hne])]

theorem parseQuery_spec {q : List Char} (hq : ActionsQuery q) : parseQuery q = [] := by
  rcases hq with h | ⟨w, hw, hne, hnn⟩
  · subst h; rfl
  · subst hw
    have hall : ∀ c ∈ w, notNewline c = true := fun c hc => by
      simpa [notNewline] using hnn c hc
    have ht : w.takeWhile notNewline = w := List.takeWhile_eq_self_iff.mpr hall
    have hd : w.dropWhile notNewline = [] := List.dropWhile_eq_nil_iff.mpr hall
    simp only [parseQuery, stripPre_self]
    rw [if_neg (by simp [ht, hne]), hd]

theorem matchAt_actionsUrl {org repo q : List Char} (h : ActionsForm org repo q) :
    matchAt (actionsUrlChars org repo q) = some (org, repo, []) := by
  simp only [actionsUrlChars, matchAt, stripPre_self,
    parseOrg_spec _ h.org_ne h.org_noslash,
    parseRepoActions_spec _ h.repo_ne h.repo_noslash,
    parseQuery_spec h.query]

theorem findMatch_of_matchAt {s o r rest : List Char}
    (h : matchAt s = some (o, r, rest)) : findMatch s = some ([], o, r, rest) := by
  cases s with
  | nil => rw [show matchAt [] = none from rfl] at h; cases h
  | cons c cs => simp only [findMatch, h]

theorem toList_asString (l : List Char) : (l.asString).toList = l := rfl

theorem replaceAllAux_nil : ∀ fuel, replaceAllAux fuel [] = []
  | 0 => rfl
  | _ + 1 => rfl

theorem replaceAllAux_single {s o r : List Char} (fuel : Nat)
    (h : findMatch s = some ([], o, r, [])) :
    replaceAllAux (fuel + 1) s = replacement o r := by
  simp only [replaceAllAux, h, replaceAllAux_nil]
  simp

theorem litGH_length : litGH.length = 19 := rfl

theorem litActions_length : litActions.length = 8 := rfl

theorem findMatch_length {s b o r rest : List Char} (h : findMatch s = some (b, o, r, rest)) :
    b.length + (replacement o r).length + 8 + rest.length ≤ s.length := by
  obtain ⟨pre, hpre⟩ := findMatch_decomp h
  subst hpre
  simp only [replacement, List.length_append, List.length_cons, litGH_length, litActions_length]
  omega

theorem replaceAllAux_length : ∀ (fuel : Nat) (s : List Char),
    (replaceAllAux fuel s).length ≤ s.length
  | 0, _ => Nat.le_refl _
  | fuel + 1, s => by
    cases h : findMatch s with
    | none => simp only [replaceAllAux, h]; exact Nat.le_refl _
    | some t =>
      obtain ⟨b, o, r, rest⟩ := t
      simp only [replaceAllAux, h]
      have h1 := findMatch_length h
      have h2 := replaceAllAux_length fuel rest
      simp only [List.length_append]
      omega

theorem replaceAll_core_shrinks {s : List Char} {t : List Char × List Char × List Char × List Char}
    (h : findMatch s = some t) :
    (replaceAllAux s.length s).length + 8 ≤ s.length := by
  obtain ⟨b, o, r, rest⟩ := t
  cases s with
  | nil => cases h
  | cons c cs =>
    have h1 := findMatch_length h
    have h2 := replaceAllAux_length cs.length rest
    simp only [List.length_cons, replaceAllAux, h]
    simp only [List.length_append, List.length_cons] at h1 ⊢
    omega

theorem replaceAll_shrinks {u : String} (h : actionsIsMatch u = true) :
    (actionsReplaceAll u).toList.length + 8 ≤ u.toList.length := by
  unfold actionsIsMatch at h
  obtain ⟨t, ht⟩ := Option.isSome_iff_exists.mp h
  unfold actionsReplaceAll
  rw [toList_asString]
  exact replaceAll_core_shrinks ht

def slashCount (l : List Char) : Nat := l.countP (fun c => c == '/')

theorem slashCount_eq_zero {l : List Char} (h : ∀ c ∈ l, c ≠ '/') : slashCount l = 0 := by
  rw [slashCount, List.countP_eq_zero]
  intro a ha
  simp [h a ha]

theorem findMatch_slashes {s b o r rest : List Char} (h : findMatch s = some (b, o, r, rest)) :
    5 ≤ slashCount s := by
  obtain ⟨pre, hpre⟩ := findMatch_decomp h
  subst hpre
  have h1 : slashCount litGH = 3 := rfl
  have h2 : slashCount litActions = 1 := rfl
  simp only [slashCount, List.countP_append, List.countP_cons] at h1 h2 ⊢
  simp only [show (('/' : Char) == '/') = true from rfl, if_true]
  omega

theorem replacement_no_match {org repo : List Char}
    (ho : ∀ c ∈ org, c ≠ '/') (hr : ∀ c ∈ repo, c ≠ '/') :
    findMatch (replacement org repo) = none := by
  cases h : findMatch (replacement org repo) with
  | none => rfl
  | some t =>
    obtain ⟨b, o, r, rest⟩ := t
    have h5 := findMatch_slashes h
    have hcount : slashCount (replacement org repo) = 4 := by
      have h1 : slashCount litGH = 3 := rfl
      have h2 := slashCount_eq_zero ho
      have h3 := slashCount_eq_zero hr
      simp only [slashCount, replacement, List.countP_append, List.countP_cons] at h1 h2 h3 ⊢
      simp only [show (('/' : Char) == '/') = true from rfl, if_true]
      omega
    rw [hcount] at h5
    omega

theorem actionsIsMatch_replacement {org repo : List Char}
    (ho : ∀ c ∈ org, c ≠ '/') (hr : ∀ c ∈ repo, c ≠ '/') :
    actionsIsMatch ((replacement org repo).asString) = false := by
  unfold actionsIsMatch
  rw [toList_asString, replacement_no_match ho hr]
  rfl

theorem actionsIsMatch_actionsUrl {org repo q : List Char} (h : ActionsForm org repo q) :
    actionsIsMatch ((actionsUrlChars org repo q).asString) = true := by
  unfold actionsIsMatch
  rw [toList_asString, findMatch_of_matchAt (matchAt_actionsUrl h)]
  rfl

theorem actionsUrl_length_pos {org repo q : List Char} :
    0 < ((actionsUrlChars org repo q).asString).toList.length := by
  rw [toList_asString]
  simp only [actionsUrlChars, List.length_append, litGH_length]
  omega

theorem actionsReplaceAll_actionsUrl {org repo q : List Char} (h : ActionsForm org repo q) :
    actionsReplaceAll ((actionsUrlChars org repo q).asString) =
      (replacement org repo).asString := by
  have hm := findMatch_of_matchAt (matchAt_actionsUrl h)
  rw [actionsReplaceAll, toList_asString]
  obtain ⟨n, hn⟩ : ∃ n, (actionsUrlChars org repo q).length = n + 1 := by
    have := @actionsUrl_length_pos org repo q
    rw [toList_asString] at this
    exact ⟨(actionsUrlChars org repo q).length - 1, by omega⟩
  rw [hn, replaceAllAux_single n hm]

/-! ## Facts about the fetcher -/

theorem attemptLoop_fst (net : Network) (recCall : String → String × Except CheckerError String)
    (url : String) : ∀ (rem i : Nat) (res : Except CheckerError String),
    (attemptLoop net recCall url i rem res).1 = url := by
  intro rem
  induction rem with
  | zero => intro i res; rfl
  | succ rem ih =>
    intro i res
    cases hnet : net url i with
    | err e =>
      simp only [attemptLoop, hnet]
      exact ih (i + 1) _
    | ok resp =>
      simp only [attemptLoop, hnet]
      by_cases h200 : resp.status = 200
      · rw [if_pos h200]
      · rw [if_neg h200]
        by_cases hrw : resp.status = 404 ∧ actionsIsMatch url = true
        · rw [if_pos hrw]
        · rw [if_neg hrw]
          by_cases hred : isRedirection resp.status = true
          · rw [if_pos hred]; exact ih (i + 1) _
          · rw [if_neg hred]; exact ih (i + 1) _

theorem get_url_fst : ∀ (fuel : Nat) (net : Network) (url : String),
    (get_url fuel net url).1 = url
  | 0, _, _ => rfl
  | fuel + 1, net, url => attemptLoop_fst net (get_url fuel net) url 5 0 _

theorem getUrlTop_fst (net : Network) (url : String) : (getUrlTop net url).1 = url :=
  get_url_fst _ net url

theorem attemptLoop_notTried (net : Network)
    (recCall : String → String × Except CheckerError String) (url : String)
    (hrec : actionsIsMatch url = true →
      isNotTriedRes (recCall (actionsReplaceAll url)).2 = false) :
    ∀ (rem i : Nat) (res : Except CheckerError String),
    (1 ≤ rem ∨ isNotTriedRes res = false) →
    isNotTriedRes (attemptLoop net recCall url i rem res).2 = false := by
  intro rem
  induction rem with
  | zero =>
    intro i res h
    rcases h with h | h
    · omega
    · exact h
  | succ rem ih =>
    intro i res _h
    cases hnet : net url i with
    | err e =>
      simp only [attemptLoop, hnet]
      exact ih (i + 1) _ (Or.inr rfl)
    | ok resp =>
      simp only [attemptLoop, hnet]
      by_cases h200 : resp.status = 200
      · rw [if_pos h200]; rfl
      · rw [if_neg h200]
        by_cases hrw : resp.status = 404 ∧ actionsIsMatch url = true
        · rw [if_pos hrw]
          exact hrec hrw.2
        · rw [if_neg hrw]
          by_cases hred : isRedirection resp.status = true
          · rw [if_pos hred]; exact ih (i + 1) _ (Or.inr rfl)
          · rw [if_neg hred]; exact ih (i + 1) _ (Or.inr rfl)

theorem get_url_notTried : ∀ (fuel : Nat) (net : Network) (url : String),
    url.toList.length < fuel → isNotTriedRes (get_url fuel net url).2 = false
  | 0, _, _ => by intro h; omega
  | fuel + 1, net, url => by
    intro hlen
    exact attemptLoop_notTried net (get_url fuel net) url
      (fun hm => get_url_notTried fuel net (actionsReplaceAll url)
        (by have := replaceAll_shrinks hm; omega))
      5 0 _ (Or.inl (by omega))

/-- The exhausted attempt loop: when every remaining attempt fails with a
retrying failure, the result carries the error of the last attempt. -/
theorem attemptLoop_exhaust (net : Network)
    (recCall : String → String × Except CheckerError String) (url : String) :
    ∀ (rem i : Nat) (res : Except CheckerError String), 1 ≤ rem →
    (∀ j, i ≤ j → j < i + rem → retries (net url j) url = true) →
    attemptLoop net recCall url i rem res =
      (url, .error (lastErr (net url (i + rem - 1)))) := by
  intro rem
  induction rem with
  | zero => intro i res h _; omega
  | succ rem ih =>
    intro i res _h hfail
    have h0 : retries (net url i) url = true := hfail i (Nat.le_refl i) (by omega)
    cases hnet : net url i with
    | err e =>
      simp only [attemptLoop, hnet]
      cases rem with
      | zero => simp [attemptLoop, lastErr, hnet]
      | succ rem2 =>
        rw [ih (i + 1) (.error (.reqwestError e)) (by omega)
          (fun j hj1 hj2 => hfail j (by omega) (by omega))]
        have harith : i + 1 + (rem2 + 1) - 1 = i + (rem2 + 1 + 1) - 1 := by omega
        rw [harith]
    | ok resp =>
      rw [hnet] at h0
      simp only [retries] at h0
      simp only [attemptLoop, hnet]
      by_cases h200 : resp.status = 200
      · rw [if_pos h200] at h0; cases h0
      · rw [if_neg h200] at h0
        rw [if_neg h200]
        by_cases hrw : resp.status = 404 ∧ actionsIsMatch url = true
        · rw [if_pos hrw] at h0; cases h0
        · rw [if_neg hrw] at h0
          rw [if_neg hrw]
          by_cases hred : isRedirection resp.status = true
          · rw [if_pos hred]
            cases rem with
            | zero => simp [attemptLoop, lastErr, hnet, hred]
            | succ rem2 =>
              rw [ih (i + 1) _ (by omega) (fun j hj1 hj2 => hfail j (by omega) (by omega))]
              have harith : i + 1 + (rem2 + 1) - 1 = i + (rem2 + 1 + 1) - 1 := by omega
              rw [harith]
          · rw [if_neg hred]
            cases rem with
            | zero => simp [attemptLoop, lastErr, hnet, hred]
            | succ rem2 =>
              rw [ih (i + 1) _ (by omega) (fun j hj1 hj2 => hfail j (by omega) (by omega))]
              have harith : i + 1 + (rem2 + 1) - 1 = i + (rem2 + 1 + 1) - 1 := by omega
              rw [harith]

/-- A status-OK response ends the attempt loop at once with the success
result, whatever attempts remain. -/
theorem attemptLoop_success (net : Network)
    (recCall : String → String × Except CheckerError String) (url : String) :
    ∀ (k rem i : Nat) (res : Except CheckerError String) (resp : Resp), k < rem →
    (∀ j, i ≤ j → j < i + k → retries (net url j) url = true) →
    net url (i + k) = .ok resp → resp.status = 200 →
    attemptLoop net recCall url i rem res = (url, .ok (respDebug resp)) := by
  intro k
  induction k with
  | zero =>
    intro rem i res resp hk _hfail hnet h200
    cases rem with
    | zero => omega
    | succ rem2 =>
      rw [Nat.add_zero] at hnet
      simp only [attemptLoop, hnet]
      rw [if_pos h200]
  | succ k ih =>
    intro rem i res resp hk hfail hnet h200
    cases rem with
    | zero => omega
    | succ rem2 =>
      have h0 : retries (net url i) url = true := hfail i (Nat.le_refl i) (by omega)
      have hnet2 : net url (i + 1 + k) = .ok resp := by
        rw [show i + 1 + k = i + (k + 1) from by omega]
        exact hnet
      cases hnet0 : net url i with
      | err e =>
        simp only [attemptLoop, hnet0]
        exact ih rem2 (i + 1) _ resp (by omega)
          (fun j hj1 hj2 => hfail j (by omega) (by omega)) hnet2 h200
      | ok resp2 =>
        rw [hnet0] at h0
        simp only [retries] at h0
        simp only [attemptLoop, hnet0]
        by_cases h200b : resp2.status = 200
        · rw [if_pos h200b] at h0; cases h0
        · rw [if_neg h200b] at h0
          rw [if_neg h200b]
          by_cases hrw : resp2.status = 404 ∧ actionsIsMatch url = true
          · rw [if_pos hrw] at h0; cases h0
          · rw [if_neg hrw] at h0
            rw [if_neg hrw]
            by_cases hred : isRedirection resp2.status = true
            · rw [if_pos hred]
              exact ih rem2 (i + 1) _ resp (by omega)
                (fun j hj1 hj2 => hfail j (by omega) (by omega)) hnet2 h200
            · rw [if_neg hred]
              exact ih rem2 (i + 1) _ resp (by omega)
                (fun j hj1 hj2 => hfail j (by omega) (by omega)) hnet2 h200

/-- The early return of the attempt loop on the GitHub-actions rewrite path. -/
theorem attemptLoop_rewrite (net : Network)
    (recCall : String → String × Except CheckerError String) (url : String)
    (rem i : Nat) (res : Except CheckerError String) (resp : Resp)
    (hnet : net url i = .ok resp) (h404 : resp.status = 404)
    (hm : actionsIsMatch url = true) :
    attemptLoop net recCall url i (rem + 1) res = (url, (recCall (actionsReplaceAll url)).2) := by
  simp only [attemptLoop, hnet]
  rw [if_neg (by simp [h404]), if_pos ⟨h404, hm⟩]

theorem requestTrace_exhaust (net : Network) (recReq : String → List (String × Nat))
    (url : String) : ∀ (rem i : Nat),
    (∀ j, i ≤ j → j < i + rem → retries (net url j) url = true) →
    requestTrace net recReq url i rem = (List.range' i rem).map (fun j => (url, j)) := by
  intro rem
  induction rem with
  | zero => intro i _; rfl
  | succ rem ih =>
    intro i hfail
    have h0 : retries (net url i) url = true := hfail i (Nat.le_refl i) (by omega)
    have htr : List.range' i (rem + 1) = i :: List.range' (i + 1) rem := rfl
    rw [htr, List.map_cons]
    cases hnet : net url i with
    | err e =>
      simp only [requestTrace, hnet]
      rw [ih (i + 1) (fun j hj1 hj2 => hfail j (by omega) (by omega))]
    | ok resp =>
      rw [hnet] at h0
      simp only [retries] at h0
      simp only [requestTrace, hnet]
      by_cases h200 : resp.status = 200
      · rw [if_pos h200] at h0; cases h0
      · rw [if_neg h200] at h0
        rw [if_neg h200]
        by_cases hrw : resp.status = 404 ∧ actionsIsMatch url = true
        · rw [if_pos hrw] at h0; cases h0
        · rw [if_neg hrw] at h0
          rw [if_neg hrw]
          rw [ih (i + 1) (fun j hj1 hj2 => hfail j (by omega) (by omega))]

theorem requestTrace_success (net : Network) (recReq : String → List (String × Nat))
    (url : String) : ∀ (k rem i : Nat) (resp : Resp), k < rem →
    (∀ j, i ≤ j → j < i + k → retries (net url j) url = true) →
    net url (i + k) = .ok resp → resp.status = 200 →
    requestTrace net recReq url i rem = (List.range' i (k + 1)).map (fun j => (url, j)) := by
  intro k
  induction k with
  | zero =>
    intro rem i resp hk _hfail hnet h200
    cases rem with
    | zero => omega
    | succ rem2 =>
      rw [Nat.add_zero] at hnet
      simp only [requestTrace, hnet]
      rw [if_pos h200]
      rfl
  | succ k ih =>
    intro rem i resp hk hfail hnet h200
    cases rem with
    | zero => omega
    | succ rem2 =>
      have h0 : retries (net url i) url = true := hfail i (Nat.le_refl i) (by omega)
      have hnet2 : net url (i + 1 + k) = .ok resp := by
        rw [show i + 1 + k = i + (k + 1) from by omega]
        exact hnet
      have htr : List.range' i (k + 1 + 1) = i :: List.range' (i + 1) (k + 1) := rfl
      rw [htr, List.map_cons]
      cases hnet0 : net url i with
      | err e =>
        simp only [requestTrace, hnet0]
        rw [ih rem2 (i + 1) resp (by omega)
          (fun j hj1 hj2 => hfail j (by omega) (by omega)) hnet2 h200]
      | ok resp2 =>
        rw [hnet0] at h0
        simp only [retries] at h0
        simp only [requestTrace, hnet0]
        by_cases h200b : resp2.status = 200
        · rw [if_pos h200b] at h0; cases h0
        · rw [if_neg h200b] at h0
          rw [if_neg h200b]
          by_cases hrw : resp2.status = 404 ∧ actionsIsMatch url = true
          · rw [if_pos hrw] at h0; cases h0
          · rw [if_neg hrw] at h0
            rw [if_neg hrw]
            rw [ih rem2 (i + 1) resp (by omega)
              (fun j hj1 hj2 => hfail j (by omega) (by omega)) hnet2 h200]

theorem requestTrace_rewrite (net : Network) (recReq : String → List (String × Nat))
    (url : String) (rem i : Nat) (resp : Resp)
    (hnet : net url i = .ok resp) (h404 : resp.status = 404)
    (hm : actionsIsMatch url = true) :
    requestTrace net recReq url i (rem + 1) = (url, i) :: recReq (actionsReplaceAll url) := by
  simp only [requestTrace, hnet]
  rw [if_neg (by simp [h404]), if_pos ⟨h404, hm⟩]

theorem requestTrace_targets (net : Network) (recReq : String → List (String × Nat))
    (url : String) (hm : actionsIsMatch url = false) :
    ∀ (rem i : Nat) (e : String × Nat), e ∈ requestTrace net recReq url i rem → e.1 = url := by
  intro rem
  induction rem with
  | zero => intro i e he; cases he
  | succ rem ih =>
    intro i e he
    cases hnet : net url i with
    | err e2 =>
      simp only [requestTrace, hnet] at he
      rcases List.mem_cons.mp he with h | h
      · rw [h]
      · exact ih (i + 1) e h
    | ok resp =>
      simp only [requestTrace, hnet] at he
      by_cases h200 : resp.status = 200
      · rw [if_pos h200] at he
        have : e = (url, i) := by simpa using he
        rw [this]
      · rw [if_neg h200] at he
        by_cases hrw : resp.status = 404 ∧ actionsIsMatch url = true
        · rw [hm] at hrw
          simp at hrw
        · rw [if_neg hrw] at he
          rcases List.mem_cons.mp he with h | h
          · rw [h]
          · exact ih (i + 1) e h

theorem getUrlTrace_targets (fuel : Nat) (net : Network) (url : String)
    (hm : actionsIsMatch url = false) :
    ∀ e ∈ getUrlTrace fuel net url, e.1 = url := by
  cases fuel with
  | zero => intro e he; cases he
  | succ fuel => exact fun e he => requestTrace_targets net _ url hm 5 0 e he

/-! ## Facts about the permit trace -/

theorem checkTraceLoop_cases (net : Network) (recTrace : String → List PoolEvent)
    (url : String) : ∀ (rem i : Nat),
    checkTraceLoop net recTrace url i rem = [] ∨
      checkTraceLoop net recTrace url i rem = recTrace (actionsReplaceAll url) := by
  intro rem
  induction rem with
  | zero => intro i; exact Or.inl rfl
  | succ rem ih =>
    intro i
    cases hnet : net url i with
    | err e =>
      simp only [checkTraceLoop, hnet]
      exact ih (i + 1)
    | ok resp =>
      simp only [checkTraceLoop, hnet]
      by_cases h200 : resp.status = 200
      · rw [if_pos h200]; exact Or.inl rfl
      · rw [if_neg h200]
        by_cases hrw : resp.status = 404 ∧ actionsIsMatch url = true
        · rw [if_pos hrw]; exact Or.inr rfl
        · rw [if_neg hrw]; exact ih (i + 1)

theorem checkTrace_balanced : ∀ (fuel : Nat) (net : Network) (url : String),
    (checkTrace fuel net url).count .acq = (checkTrace fuel net url).count .rel
  | 0, _, _ => rfl
  | fuel + 1, net, url => by
    simp only [checkTrace]
    rcases checkTraceLoop_cases net (checkTrace fuel net) url 5 0 with h | h
    · rw [h]; rfl
    · rw [h]
      have hbal := checkTrace_balanced fuel net (actionsReplaceAll url)
      simp only [List.count_cons, List.count_append,
        show (PoolEvent.rel == PoolEvent.acq) = false from rfl,
        show (PoolEvent.acq == PoolEvent.acq) = true from rfl,
        show (PoolEvent.acq == PoolEvent.rel) = false from rfl,
        show (PoolEvent.rel == PoolEvent.rel) = true from rfl]
      simp only [List.count_nil]
      omega

theorem checkTraceLoop_rewrite (net : Network) (recTrace : String → List PoolEvent)
    (url : String) (rem i : Nat) (resp : Resp)
    (hnet : net url i = .ok resp) (h404 : resp.status = 404)
    (hm : actionsIsMatch url = true) :
    checkTraceLoop net recTrace url i (rem + 1) = recTrace (actionsReplaceAll url) := by
  simp only [checkTraceLoop, hnet]
  rw [if_neg (by simp [h404]), if_pos ⟨h404, hm⟩]

/-! ## Facts about the pool transition system -/

theorem poolReachable_sum {s : PoolState} (h : PoolReachable s) :
    s.remaining + s.outstanding = 20 := by
  induction h with
  | init => rfl
  | step _hr hs ih =>
    cases hs with
    | acq r o hpos =>
      simp only at ih ⊢
      omega
    | rel r o hpos =>
      simp only at ih ⊢
      omega

/-! ## Facts about the orchestrator -/

/-- No URL is in both `working` and `failed`. -/
def DisjointStore (r : Results) : Prop :=
  ∀ u ∈ r.working, hasKey u r.failed = false

theorem mem_scheduledUrls (loaded : Results) (candidates : List String) (u : String) :
    u ∈ scheduledUrls loaded candidates ↔
      u ∈ candidates ∧ startsWithHttp u = true ∧ u ∉ loaded.working := by
  simp only [scheduledUrls, List.mem_filter, Bool.and_eq_true, Bool.not_eq_true]
  constructor
  · rintro ⟨h1, h2, h3⟩
    refine ⟨h1, h2, ?_⟩
    intro hmem
    rw [List.contains, List.elem_eq_true_of_mem hmem] at h3
    cases h3
  · rintro ⟨h1, h2, h3⟩
    refine ⟨h1, h2, ?_⟩
    cases hc : loaded.working.contains u with
    | false => rfl
    | true =>
      exact absurd (by simpa [List.contains, List.elem_iff] using hc) h3

theorem processOne_error_find (r : Results) (u : String) (err : CheckerError) :
    mapFind? u ((processOne r (u, .error err)).failed) = some (renderMessage u err) := by
  simp only [processOne]
  exact mapFind?_mapInsert_self _ _ _

theorem drain_failed_sorted (comps : List (String × Except CheckerError String)) :
    ∀ r : Results, sortedStrings (r.failed.map Prod.fst) = true →
    sortedStrings (((comps.foldl processOne r).failed).map Prod.fst) = true := by
  induction comps with
  | nil => exact fun r hs => hs
  | cons c rest ih =>
    intro r hs
    rw [List.foldl_cons]
    apply ih
    obtain ⟨u, res⟩ := c
    cases res with
    | ok v => exact hs
    | error err => exact sorted_mapInsert _ _ hs

theorem drain_working_sorted (comps : List (String × Except CheckerError String)) :
    ∀ r : Results, sortedStrings r.working = true →
    sortedStrings (comps.foldl processOne r).working = true := by
  induction comps with
  | nil => exact fun r hs => hs
  | cons c rest ih =>
    intro r hs
    rw [List.foldl_cons]
    apply ih
    obtain ⟨u, res⟩ := c
    cases res with
    | ok v => exact sorted_setInsert _ hs
    | error err => exact hs

/-- The drain-loop invariant: if all completions of one URL agree in polarity,
every state reached by processing a prefix of the completions keeps `working`
and `failed` disjoint. -/
theorem drain_invariant :
    ∀ (comps : List (String × Except CheckerError String)) (r : Results),
    DisjointStore r →
    (∀ u ∈ r.working, ∀ res, (u, res) ∈ comps → resultOk res = true) →
    (∀ u, hasKey u r.failed = true → ∀ res, (u, res) ∈ comps → resultOk res = false) →
    (∀ u r1 r2, (u, r1) ∈ comps → (u, r2) ∈ comps → resultOk r1 = resultOk r2) →
    ∀ n, DisjointStore ((comps.take n).foldl processOne r) := by
  intro comps
  induction comps with
  | nil =>
    intro r ha _ _ _ n
    simpa [List.take_nil] using ha
  | cons c rest ih =>
    intro r ha hb hc hpol n
    cases n with
    | zero => simpa using ha
    | succ n =>
      rw [List.take_succ_cons, List.foldl_cons]
      obtain ⟨u, res⟩ := c
      cases res with
      | ok v =>
        refine ih (processOne r (u, .ok v)) ?_ ?_ ?_ ?_ n
        · intro w hw
          simp only [processOne] at hw ⊢
          rcases (mem_setInsert w u r.working).mp hw with hwu | hwo
          · subst hwu
            cases hk : hasKey w r.failed with
            | false => rfl
            | true =>
              have := hc w hk (.ok v) (by exact List.mem_cons_self _ _)
              simp [resultOk] at this
          · exact ha w hwo
        · intro w hw res2 hres2
          simp only [processOne] at hw
          rcases (mem_setInsert w u r.working).mp hw with hwu | hwo
          · subst hwu
            have := hpol w (.ok v) res2 (List.mem_cons_self _ _) (List.mem_cons_of_mem _ hres2)
            simpa [resultOk] using this.symm
          · exact hb w hwo res2 (List.mem_cons_of_mem _ hres2)
        · intro w hw res2 hres2
          simp only [processOne] at hw
          exact hc w hw res2 (List.mem_cons_of_mem _ hres2)
        · intro w r1 r2 h1 h2
          exact hpol w r1 r2 (List.mem_cons_of_mem _ h1) (List.mem_cons_of_mem _ h2)
      | error err =>
        refine ih (processOne r (u, .error err)) ?_ ?_ ?_ ?_ n
        · intro w hw
          simp only [processOne] at hw ⊢
          have hwu : w ≠ u := by
            intro he
            subst he
            have := hb w hw (.error err) (List.mem_cons_self _ _)
            simp [resultOk] at this
          rw [hasKey_mapInsert_other hwu _ _]
          exact ha w hw
        · intro w hw res2 hres2
          simp only [processOne] at hw
          exact hb w hw res2 (List.mem_cons_of_mem _ hres2)
        · intro w hw res2 hres2
          simp only [processOne] at hw
          by_cases hwu : w = u
          · subst hwu
            have := hpol w (.error err) res2 (List.mem_cons_self _ _)
              (List.mem_cons_of_mem _ hres2)
            simpa [resultOk] using this.symm
          · rw [hasKey_mapInsert_other hwu _ _] at hw
            exact hc w hw res2 (List.mem_cons_of_mem _ hres2)
        · intro w r1 r2 h1 h2
          exact hpol w r1 r2 (List.mem_cons_of_mem _ h1) (List.mem_cons_of_mem _ h2)

theorem snd_mem_of_mem_enumFrom {α : Type} :
    ∀ (l : List α) (n : Nat) (p : Nat × α), p ∈ l.enumFrom n → p.2 ∈ l
  | [], _, _ => by intro h; cases h
  | a :: as, n, p => by
    intro h
    simp only [List.enumFrom] at h
    rcases List.mem_cons.mp h with h | h
    · rw [h]; exact List.mem_cons_self _ _
    · exact List.mem_cons_of_mem _ (snd_mem_of_mem_enumFrom as (n + 1) p h)

/-- Every completion of a run is the completed check of some scheduled URL,
under some network behavior. -/
theorem completionsOf_spec (nets : Nat → Network) (loaded : Results)
    (candidates : List String) :
    ∀ c ∈ completionsOf nets loaded candidates, ∃ netc : Network, ∃ u : String,
      u ∈ scheduledUrls loaded candidates ∧ c = getUrlTop netc u := by
  intro c hc
  simp only [completionsOf, List.mem_map] at hc
  obtain ⟨p, hp, hcp⟩ := hc
  exact ⟨nets p.1, p.2, snd_mem_of_mem_enumFrom _ 0 p hp, hcp.symm⟩

/-! ## The claims -/

/-- C4: every successful acquire of a permit has exactly one matching release on
every exit path of the holder (the acquire/release trace of a whole check is
balanced, whatever the network does — success, failure, or rewrite), and in
every reachable pool state the number of acquired-but-unreleased permits is at
most the capacity 20. -/
theorem C4_permit_balance (s : PoolState) (h : PoolReachable s) :
    s.outstanding ≤ 20 ∧
    ∀ (fuel : Nat) (net : Network) (url : String),
      (checkTrace fuel net url).count .acq = (checkTrace fuel net url).count .rel := by
  refine ⟨?_, checkTrace_balanced⟩
  have := poolReachable_sum h
  omega

theorem C4_permit_balance_witness :
    (PoolState.mk 19 1).outstanding ≤ 20 ∧
    (checkTrace 1 (fun _ _ => FetchResult.ok ⟨200, none⟩) "http://x").count .acq =
      (checkTrace 1 (fun _ _ => FetchResult.ok ⟨200, none⟩) "http://x").count .rel := by
  have h := C4_permit_balance ⟨19, 1⟩
    (PoolReachable.step PoolReachable.init (PoolStep.acq 20 0 (by decide)))
  exact ⟨h.1, h.2 1 _ _⟩

/-- C5: a candidate URL is scheduled for a check exactly when it starts with
"http" and is not in the `working` set loaded at startup; in particular no URL
of the loaded `working` set is ever checked during the run. -/
theorem C5_schedule_filter (loaded : Results) (candidates : List String) (u w : String) :
    (u ∈ scheduledUrls loaded candidates ↔
      u ∈ candidates ∧ startsWithHttp u = true ∧ u ∉ loaded.working) ∧
    (w ∈ loaded.working → (scheduledUrls loaded candidates).contains w = false) := by
  refine ⟨mem_scheduledUrls loaded candidates u, ?_⟩
  intro hw
  cases hc : (scheduledUrls loaded candidates).contains w with
  | false => rfl
  | true =>
    have hmem : w ∈ scheduledUrls loaded candidates := by
      simpa [List.contains, List.elem_iff] using hc
    exact absurd hw ((mem_scheduledUrls loaded candidates w).mp hmem).2.2

theorem C5_schedule_filter_witness :
    (scheduledUrls ⟨["http://a"], []⟩ ["http://a", "http://b", "ftp://c"]).contains
      "http://a" = false :=
  (C5_schedule_filter ⟨["http://a"], []⟩ ["http://a", "http://b", "ftp://c"]
    "http://b" "http://a").2 (by decide)

/-- C6: no check outcome is ever the internal `NotTried` placeholder: every
check returned by `getUrlTop` — and hence every completion the drain loop
processes — has had its result overwritten by at least one attempt, including
on the rewrite path. -/
theorem C6_placeholder_never_observable (net : Network) (url : String)
    (nets : Nat → Network) (loaded : Results) (candidates : List String) :
    isNotTriedRes (getUrlTop net url).2 = false ∧
    ∀ c ∈ completionsOf nets loaded candidates, isNotTriedRes c.2 = false := by
  refine ⟨get_url_notTried _ net url (by omega), ?_⟩
  intro c hc
  simp only [completionsOf, List.mem_map] at hc
  obtain ⟨p, _, hcp⟩ := hc
  rw [← hcp]
  exact get_url_notTried _ (nets p.1) p.2 (by omega)

theorem C6_placeholder_never_observable_witness :
    isNotTriedRes (getUrlTop (fun _ _ => FetchResult.ok ⟨404, none⟩)
      "https://github.com/a/b/actions").2 = false ∧
    isNotTriedRes (getUrlTop (fun _ _ => FetchResult.err "dns") "http://x").2 = false := by
  constructor
  · exact (C6_placeholder_never_observable (fun _ _ => FetchResult.ok ⟨404, none⟩)
      "https://github.com/a/b/actions" (fun _ => fun _ _ => FetchResult.ok ⟨404, none⟩)
      ⟨[], []⟩ []).1
  · exact (C6_placeholder_never_observable (fun _ _ => FetchResult.err "dns") "http://x"
      (fun _ => fun _ _ => FetchResult.err "dns") ⟨[], []⟩ []).1

/-- C7: persisting a store and loading the persisted form is lossless — the
rebuilt store has the same `working` set and the same `failed` mapping — and
`working` is persisted as a sorted sequence of unique strings.  The store
representation invariant (strictly sorted, as `BTreeSet`/`BTreeMap` iterate)
is the hypothesis; every store the program builds satisfies it. -/
theorem C7_persist_load_roundtrip (r : Results)
    (hw : sortedStrings r.working = true)
    (hf : sortedStrings (r.failed.map Prod.fst) = true) :
    loadResults (persistResults r) = r ∧
    sortedStrings (persistResults r).working = true ∧
    (persistResults r).working.Nodup := by
  refine ⟨?_, hw, sorted_nodup hw⟩
  simp only [loadResults, persistResults]
  rw [foldl_setInsert_sorted r.working [] hw (by intro b _ a ha; cases ha),
    foldl_mapInsert_sorted r.failed [] hf (by intro p _ q hq; cases hq)]
  cases r
  simp

theorem C7_persist_load_roundtrip_witness :
    loadResults (persistResults ⟨["http://a", "http://b"], [("http://c", "[503] http://c")]⟩) =
      (⟨["http://a", "http://b"], [("http://c", "[503] http://c")]⟩ : Results) ∧
    sortedStrings (persistResults
      ⟨["http://a", "http://b"], [("http://c", "[503] http://c")]⟩).working = true ∧
    (persistResults
      ⟨["http://a", "http://b"], [("http://c", "[503] http://c")]⟩).working.Nodup :=
  C7_persist_load_roundtrip ⟨["http://a", "http://b"], [("http://c", "[503] http://c")]⟩
    (by decide) (by decide)

/-- C8: the run signals success to its caller exactly when the final `failed`
map is empty; when it is not empty the final report prints one diagnostic line
per failed URL, in sorted key order, and the error carries the count of failed
URLs. -/
theorem C8_exit_and_report (loaded : Results)
    (comps : List (String × Except CheckerError String)) :
    exitOk (finalOutcome (drainRun loaded comps)) = (drainRun loaded comps).failed.isEmpty ∧
    ((drainRun loaded comps).failed.isEmpty = false →
      finalLines (drainRun loaded comps) = (drainRun loaded comps).failed.map Prod.snd ∧
      (finalLines (drainRun loaded comps)).length = (drainRun loaded comps).failed.length ∧
      sortedStrings ((drainRun loaded comps).failed.map Prod.fst) = true ∧
      finalOutcome (drainRun loaded comps) =
        .error (toString (drainRun loaded comps).failed.length ++ " urls with errors")) ∧
    ((drainRun loaded comps).failed.isEmpty = true →
      finalOutcome (drainRun loaded comps) = .ok ()) := by
  refine ⟨?_, ?_, ?_⟩
  · cases he : (drainRun loaded comps).failed.isEmpty with
    | true => simp [finalOutcome, he, exitOk]
    | false => simp [finalOutcome, he, exitOk]
  · intro he
    refine ⟨by simp [finalLines, he], by simp [finalLines, he], ?_, by simp [finalOutcome, he]⟩
    exact drain_failed_sorted comps (initResults loaded) rfl
  · intro he
    simp [finalOutcome, he]

theorem C8_exit_and_report_witness :
    finalLines (drainRun ⟨[], []⟩ [("http://x", .error (.httpError 503 none))]) =
      (drainRun ⟨[], []⟩ [("http://x", .error (.httpError 503 none))]).failed.map Prod.snd ∧
    finalOutcome (drainRun ⟨[], []⟩ [("http://x", .error (.httpError 503 none))]) =
      .error (toString (drainRun ⟨[], []⟩
        [("http://x", .error (.httpError 503 none))]).failed.length ++ " urls with errors") := by
  have h := (C8_exit_and_report ⟨[], []⟩
    [("http://x", .error (.httpError 503 none))]).2.1 (by decide)
  exact ⟨h.1, h.2.2.2⟩

/-- C1 counterexample: with the duplicate candidate "http://dup" scheduled
twice (it is not cached), one concurrent check observing 200 and the other
observing 500, the drain loop inserts the URL into `working` on the first
completion and into `failed` on the second — the final (reachable) state holds
"http://dup" in both collections. -/
theorem C1_counterexample :
    "http://dup" ∈ (drainRun ⟨[], []⟩ (completionsOf
      (fun k => if k = 0 then (fun _ _ => FetchResult.ok ⟨200, none⟩)
        else (fun _ _ => FetchResult.ok ⟨500, none⟩))
      ⟨[], []⟩ ["http://dup", "http://dup"])).working ∧
    hasKey "http://dup" (drainRun ⟨[], []⟩ (completionsOf
      (fun k => if k = 0 then (fun _ _ => FetchResult.ok ⟨200, none⟩)
        else (fun _ _ => FetchResult.ok ⟨500, none⟩))
      ⟨[], []⟩ ["http://dup", "http://dup"])).failed = true := by
  decide

/-- C1 (amended): in every state reached by the drain loop — any prefix of the
processed completions, in any order — no URL is in both `working` and `failed`
at once, PROVIDED no URL completes both successfully and unsuccessfully in the
run; when duplicate in-flight checks of one URL yield outcomes of both
polarities (see the counterexample) the URL ends up in both collections. -/
theorem C1_disjoint_amended (loaded : Results) (candidates : List String)
    (comps : List (String × Except CheckerError String))
    (h1 : ∀ c ∈ comps, ∃ netc : Network, ∃ u : String,
      u ∈ scheduledUrls loaded candidates ∧ c = getUrlTop netc u)
    (h2 : ∀ u r1 r2, (u, r1) ∈ comps → (u, r2) ∈ comps → resultOk r1 = resultOk r2) :
    ∀ n, DisjointStore ((comps.take n).foldl processOne (initResults loaded)) := by
  apply drain_invariant comps (initResults loaded) ?_ ?_ ?_ h2
  · intro u _hu
    simp [initResults, hasKey]
  · intro u hu res hres
    obtain ⟨netc, v, hv, hc⟩ := h1 (u, res) hres
    have hfst : u = v := by
      have := congrArg Prod.fst hc
      simpa [getUrlTop_fst] using this
    subst hfst
    simp only [initResults] at hu
    exact absurd hu ((mem_scheduledUrls loaded candidates u).mp hv).2.2
  · intro u hku
    simp [initResults, hasKey] at hku

theorem C1_disjoint_amended_witness :
    DisjointStore (((completionsOf (fun _ => fun _ _ => FetchResult.ok ⟨200, none⟩)
      ⟨[], []⟩ ["http://a"]).take 1).foldl processOne (initResults ⟨[], []⟩)) := by
  apply C1_disjoint_amended ⟨[], []⟩ ["http://a"]
  · exact completionsOf_spec _ _ _
  · intro u r1 r2 hm1 hm2
    have hc : completionsOf (fun _ => fun _ _ => FetchResult.ok ⟨200, none⟩)
        ⟨[], []⟩ ["http://a"] =
        [("http://a", .ok (respDebug ⟨200, none⟩))] := by decide
    rw [hc] at hm1 hm2
    have e1 : (u, r1) = ("http://a", .ok (respDebug ⟨200, none⟩)) := by simpa using hm1
    have e2 : (u, r2) = ("http://a", .ok (respDebug ⟨200, none⟩)) := by simpa using hm2
    rw [(Prod.mk.injEq _ _ _ _).mp e1 |>.2, (Prod.mk.injEq _ _ _ _).mp e2 |>.2]

/-- C2: for a URL of the spec's GitHub-actions pattern whose request returns
HTTP 404, the check rewrites to exactly `https://github.com/{org}/{repo}` and
returns that inner check's outcome keyed by the ORIGINAL url; the trace is one
request to the original URL followed only by requests to the rewritten URL
(one substitution level — the rewritten URL never matches the pattern again,
so no further rewriting happens). -/
theorem C2_actions_rewrite (net : Network) (org repo q : List Char) (loc : Option String)
    (hform : ActionsForm org repo q) (url : String)
    (hurl : url = (actionsUrlChars org repo q).asString)
    (hnet : net url 0 = .ok ⟨404, loc⟩) :
    actionsReplaceAll url = (replacement org repo).asString ∧
    getUrlTop net url =
      (url, (get_url url.toList.length net ((replacement org repo).asString)).2) ∧
    getUrlTrace (url.toList.length + 1) net url =
      (url, 0) :: getUrlTrace url.toList.length net ((replacement org repo).asString) ∧
    (∀ e ∈ getUrlTrace url.toList.length net ((replacement org repo).asString),
      e.1 = (replacement org repo).asString) := by
  subst hurl
  have hm := actionsIsMatch_actionsUrl hform
  have hra := actionsReplaceAll_actionsUrl hform
  refine ⟨hra, ?_, ?_, ?_⟩
  · rw [← hra]
    exact attemptLoop_rewrite net
      (get_url ((actionsUrlChars org repo q).asString).toList.length net)
      ((actionsUrlChars org repo q).asString) 4 0 (.error .notTried) ⟨404, loc⟩ hnet rfl hm
  · rw [← hra]
    exact requestTrace_rewrite net
      (getUrlTrace ((actionsUrlChars org repo q).asString).toList.length net)
      ((actionsUrlChars org repo q).asString) 4 0 ⟨404, loc⟩ hnet rfl hm
  · exact getUrlTrace_targets _ net _
      (actionsIsMatch_replacement hform.org_noslash hform.repo_noslash)

def urlC2 : String := "https://github.com/acme/widgets/actions?workflow=ci"

def netC2 : Network := fun u _ =>
  if u = urlC2 then .ok ⟨404, none⟩ else .ok ⟨200, none⟩

theorem C2_actions_rewrite_witness :
    actionsReplaceAll urlC2 = (replacement "acme".toList "widgets".toList).asString ∧
    getUrlTop netC2 urlC2 =
      (urlC2, (get_url urlC2.toList.length netC2
        ((replacement "acme".toList "widgets".toList).asString)).2) ∧
    getUrlTrace (urlC2.toList.length + 1) netC2 urlC2 =
      (urlC2, 0) :: getUrlTrace urlC2.toList.length netC2
        ((replacement "acme".toList "widgets".toList).asString) ∧
    (∀ e ∈ getUrlTrace urlC2.toList.length netC2
        ((replacement "acme".toList "widgets".toList).asString),
      e.1 = (replacement "acme".toList "widgets".toList).asString) :=
  C2_actions_rewrite netC2 "acme".toList "widgets".toList "?workflow=ci".toList none
    ⟨by decide, by decide, by decide, by decide,
      Or.inr ⟨"ci".toList, by decide, by decide, by decide⟩⟩
    urlC2 (by decide) (by decide)

/-- C3: a status-OK response ends a check immediately with success (after `k`
failing attempts the trace has exactly `k + 1` requests); when every one of
the 5 attempts fails, exactly 5 attempts are made and the outcome carries the
error of the last attempt, which the drain loop renders into `failed` as
`"[<status>] <url> -> <location>"` for a status error with a captured redirect
target, `"[<status>] <url>"` for a status error without one, and a non-empty
generic rendering for any other error kind. -/
theorem C3_attempts_and_rendering (net : Network) (url : String) :
    ((∀ j, j < 5 → retries (net url j) url = true) →
      getUrlTop net url = (url, .error (lastErr (net url 4))) ∧
      getUrlTrace (url.toList.length + 1) net url =
        (List.range' 0 5).map (fun j => (url, j)) ∧
      (∀ r : Results,
        mapFind? url ((processOne r (url, .error (lastErr (net url 4)))).failed) =
          some (renderMessage url (lastErr (net url 4))))) ∧
    (∀ k resp, k < 5 → (∀ j, j < k → retries (net url j) url = true) →
      net url k = .ok resp → resp.status = 200 →
      getUrlTop net url = (url, .ok (respDebug resp)) ∧
      getUrlTrace (url.toList.length + 1) net url =
        (List.range' 0 (k + 1)).map (fun j => (url, j))) ∧
    (∀ s l, renderMessage url (.httpError s (some l)) =
      "[" ++ toString s ++ "] " ++ url ++ " -> " ++ l) ∧
    (∀ s, renderMessage url (.httpError s none) = "[" ++ toString s ++ "] " ++ url) ∧
    (∀ e, 0 < (renderMessage url (.reqwestError e)).toList.length) ∧
    0 < (renderMessage url .notTried).toList.length := by
  refine ⟨?_, ?_, fun s l => rfl, fun s => rfl, ?_,
    by show 0 < ("NotTried" : String).toList.length; decide⟩
  · intro hfail
    refine ⟨?_, ?_, fun r => processOne_error_find r url _⟩
    · exact attemptLoop_exhaust net (get_url url.toList.length net) url 5 0
        (.error .notTried) (by omega) (fun j _ hj2 => hfail j (by omega))
    · exact requestTrace_exhaust net (getUrlTrace url.toList.length net) url 5 0
        (fun j _ hj2 => hfail j (by omega))
  · intro k resp hk hfail hnet h200
    refine ⟨?_, ?_⟩
    · exact attemptLoop_success net (get_url url.toList.length net) url k 5 0
        (.error .notTried) resp hk (fun j _ hj2 => hfail j (by omega))
        (by rw [Nat.zero_add]; exact hnet) h200
    · exact requestTrace_success net (getUrlTrace url.toList.length net) url k 5 0
        resp hk (fun j _ hj2 => hfail j (by omega))
        (by rw [Nat.zero_add]; exact hnet) h200
  · intro e
    show 0 < (renderMessage url (.reqwestError e)).data.length
    have hre : renderMessage url (.reqwestError e) =
        "ReqwestError \x7b error: " ++ e ++ " \x7d" := rfl
    rw [hre, String.data_append, String.data_append, List.length_append, List.length_append]
    have hc1 : ("ReqwestError \x7b error: " : String).data.length = 22 := by decide
    omega

def net503 : Network := fun _ _ => .ok ⟨503, none⟩

theorem C3_attempts_and_rendering_witness :
    getUrlTop net503 "http://x" = ("http://x", .error (lastErr (net503 "http://x" 4))) ∧
    getUrlTrace ("http://x".toList.length + 1) net503 "http://x" =
      (List.range' 0 5).map (fun j => ("http://x", j)) ∧
    mapFind? "http://x" ((processOne ⟨[], []⟩
        ("http://x", .error (lastErr (net503 "http://x" 4)))).failed) =
      some (renderMessage "http://x" (lastErr (net503 "http://x" 4))) ∧
    renderMessage "http://x" (lastErr (net503 "http://x" 4)) = "[503] http://x" ∧
    getUrlTop (fun _ _ => FetchResult.ok ⟨200, none⟩) "http://y" =
      ("http://y", .ok (respDebug ⟨200, none⟩)) := by
  obtain ⟨h1, _, h3, _, _⟩ := C3_attempts_and_rendering net503 "http://x"
  obtain ⟨ha, hb, hc⟩ := h1 (by decide)
  obtain ⟨_, h2s, _⟩ := C3_attempts_and_rendering
    (fun _ _ => FetchResult.ok ⟨200, none⟩) "http://y"
  refine ⟨ha, hb, hc ⟨[], []⟩, by decide, ?_⟩
  exact (h2s 0 ⟨200, none⟩ (by decide) (fun j hj => by omega) rfl rfl).1

/-- C9: a check succeeds exactly when a response with status 200 is received —
any constant non-200 status (including other 2xx codes such as 201 or 204 and
not triggering the actions rewrite) is treated as an HTTP status error,
retried, and recorded as a failure carrying that status. -/
theorem C9_success_iff_200 (net : Network) (url : String) (s : Nat) (loc : Option String)
    (hnet : ∀ i, i < 5 → net url i = .ok ⟨s, loc⟩)
    (hnr : ¬(s = 404 ∧ actionsIsMatch url = true)) :
    (resultOk (getUrlTop net url).2 = true ↔ s = 200) ∧
    (s ≠ 200 → (getUrlTop net url).2 =
      .error (.httpError s (if isRedirection s = true then loc else none))) := by
  by_cases h200 : s = 200
  · subst h200
    have hres : getUrlTop net url = (url, .ok (respDebug ⟨200, loc⟩)) :=
      attemptLoop_success net (get_url url.toList.length net) url 0 5 0 (.error .notTried)
        ⟨200, loc⟩ (by omega) (fun j _ hj => by omega) (hnet 0 (by omega)) rfl
    rw [hres]
    exact ⟨by simp [resultOk], fun h => absurd rfl h⟩
  · have hretry : ∀ j, 0 ≤ j → j < 0 + 5 → retries (net url j) url = true := by
      intro j _ hj
      rw [hnet j (by omega)]
      simp [retries, h200, hnr]
    have hres : getUrlTop net url = (url, .error (lastErr (net url (0 + 5 - 1)))) :=
      attemptLoop_exhaust net (get_url url.toList.length net) url 5 0 (.error .notTried)
        (by omega) hretry
    have hlast : lastErr (FetchResult.ok ⟨s, loc⟩) =
        .httpError s (if isRedirection s = true then loc else none) := by
      simp only [lastErr]
      by_cases hred : isRedirection s = true
      · rw [if_pos hred, if_pos hred]
      · rw [if_neg hred, if_neg hred]
    rw [hres, hnet (0 + 5 - 1) (by omega), hlast]
    exact ⟨by simp [resultOk, h200], fun _ => rfl⟩

def net201 : Network := fun _ _ => .ok ⟨201, none⟩

theorem C9_success_iff_200_witness :
    (resultOk (getUrlTop net201 "http://x").2 = true ↔ (201 : Nat) = 200) ∧
    (getUrlTop net201 "http://x").2 =
      .error (.httpError 201 (if isRedirection 201 = true then none else none)) := by
  have h := C9_success_iff_200 net201 "http://x" 201 none
    (fun i _ => rfl) (by decide)
  exact ⟨h.1, h.2 (by decide)⟩

/-- C10: on the rewrite path the recursive check of the rewritten URL acquires
its own permit while the original check's permit is still held: the
acquire/release trace of such a check begins with two acquires and no release
in between, so one logical check holds two permits simultaneously. -/
theorem C10_second_permit (net : Network) (org repo q : List Char) (loc : Option String)
    (hform : ActionsForm org repo q) (url : String)
    (hurl : url = (actionsUrlChars org repo q).asString)
    (hnet : net url 0 = .ok ⟨404, loc⟩) :
    (checkTrace (url.toList.length + 1) net url).take 2 = [.acq, .acq] := by
  subst hurl
  have hm := actionsIsMatch_actionsUrl hform
  have hra := actionsReplaceAll_actionsUrl hform
  have h5 : checkTraceLoop net
      (checkTrace ((actionsUrlChars org repo q).asString).toList.length net)
      ((actionsUrlChars org repo q).asString) 0 5 =
      checkTrace ((actionsUrlChars org repo q).asString).toList.length net
        (actionsReplaceAll ((actionsUrlChars org repo q).asString)) :=
    checkTraceLoop_rewrite net _ _ 4 0 ⟨404, loc⟩ hnet rfl hm
  obtain ⟨n, hn⟩ : ∃ n, ((actionsUrlChars org repo q).asString).toList.length = n + 1 := by
    have := @actionsUrl_length_pos org repo q
    exact ⟨((actionsUrlChars org repo q).asString).toList.length - 1, by omega⟩
  have hinner : checkTrace (((actionsUrlChars org repo q).asString).toList.length) net
      ((replacement org repo).asString) =
      .acq :: (checkTraceLoop net (checkTrace n net) ((replacement org repo).asString) 0 5
        ++ [.rel]) := by
    rw [hn]
    rfl
  have houter : checkTrace (((actionsUrlChars org repo q).asString).toList.length + 1) net
      ((actionsUrlChars org repo q).asString) =
      .acq :: (checkTraceLoop net
        (checkTrace ((actionsUrlChars org repo q).asString).toList.length net)
        ((actionsUrlChars org repo q).asString) 0 5 ++ [.rel]) := rfl
  rw [houter, h5, hra, hinner]
  rfl

theorem C10_second_permit_witness :
    (checkTrace (urlC2.toList.length + 1) netC2 urlC2).take 2 = [.acq, .acq] :=
  C10_second_permit netC2 "acme".toList "widgets".toList "?workflow=ci".toList none
    ⟨by decide, by decide, by decide, by decide,
      Or.inr ⟨"ci".toList, by decide, by decide, by decide⟩⟩
    urlC2 (by decide) (by decide)
